import Mathlib

/-!
Verification of the RatInABox firing-rate engine (`ratinabox/Neurons.py`).

Each Python function relevant to the checked claims is shallowly embedded as
a Lean definition.  Pure numerical code over machine floats is embedded over
`ℚ` where only field operations and comparisons occur (so statements stay
decidable) and over `ℝ` where the code uses transcendental functions
(`exp`, `cos`, `sqrt`).  Code living outside this repository snapshot
(`utils.py`, the `Environment` geometry provider, the `Agent`) is modelled
from the specification; every such definition carries a doc comment
starting with `Modelled from the spec:`.
-/

namespace RatInABox

/-! ## Boundary-vector cells: wall selection (`BoundaryVectorCells`)

`BoundaryVectorCells.get_state` casts a test ray from the query position and
intersects it with every wall.  `utils.vector_intercepts` (an external
collaborator) returns, for each (ray, wall) pair, the ray parameter `lam1`
and the wall-segment parameter `lam2`; these pairs are the inputs of the
functions below.  `boundary_vector_preference_function` scores each pair via
`np.piecewise` with conditions `(lam1 > 0, lam1 < 0, lam2 < 0, lam2 > 1)`
and values `(1/lam1, -1, -1, -1)`; later conditions overwrite earlier ones
and the default (no condition true) is `0`.  The wall actually used is
`np.argmax` of the scores (first index attaining the maximum), and the
distance fed into the Gaussian x von-Mises product is that wall's `lam1`
(`dist_to_first_wall`). -/

/-- The function `boundary_vector_preference_function` applied to one `(lam1, lam2)`
intercept pair (Neurons.py:1554-1586).  The `np.piecewise` conditions are
applied in order with later writes overwriting earlier ones, so the final
value is decided by the *last* matching condition. -/
def boundaryVectorPreference (lam : ℚ × ℚ) : ℚ :=
  if 1 < lam.2 then -1
  else if lam.2 < 0 then -1
  else if lam.1 < 0 then -1
  else if 0 < lam.1 then 1 / lam.1
  else 0

/-- Embedding of `np.argmax` over a rational list: index of the first occurrence of the
maximum (`0` on the empty list, as a junk value). -/
def argmaxIdx : List ℚ → ℕ
  | [] => 0
  | [_] => 0
  | x :: y :: xs =>
    let j := argmaxIdx (y :: xs)
    if x < (y :: xs).getD j 0 then j + 1 else 0

/-- Embedding of `np.argmin` over a rational list: index of the first occurrence of the
minimum (`0` on the empty list, as a junk value). -/
def argminIdx : List ℚ → ℕ
  | [] => 0
  | [_] => 0
  | x :: y :: xs =>
    let j := argminIdx (y :: xs)
    if (y :: xs).getD j 0 < x then j + 1 else 0

/-- Index of the wall used for a given test ray
(`np.argmax(first_wall_for_each_direction, axis=-1)`, Neurons.py:1485-1487). -/
def firstWallId (intercepts : List (ℚ × ℚ)) : ℕ :=
  argmaxIdx (intercepts.map boundaryVectorPreference)

/-- The distance fed into the Gaussian(distance) factor for a given test ray:
the ray parameter of the selected wall (`np.take_along_axis(dist_to_walls, ...)`,
Neurons.py:1479-1492). -/
def distToFirstWall (intercepts : List (ℚ × ℚ)) : ℚ :=
  (intercepts.getD (firstWallId intercepts) (0, 0)).1

/-- A candidate intersection is valid iff the ray parameter is strictly
positive and the wall-segment parameter lies in `[0, 1]`. -/
def ValidIntercept (lam : ℚ × ℚ) : Prop :=
  0 < lam.1 ∧ 0 ≤ lam.2 ∧ lam.2 ≤ 1

instance (lam : ℚ × ℚ) : Decidable (ValidIntercept lam) := by
  unfold ValidIntercept; infer_instance

/-- Concrete intercept list for the C1 witness: wall 0 lies behind the ray
(`lam1 < 0`), wall 3 misses the segment (`lam2 > 1`), walls 1 and 2 are
valid and wall 2 is the nearer of the two. -/
def testIntercepts : List (ℚ × ℚ) := [(-1, 1/2), (3, 1/2), (2, 1/2), (1, 2)]

/-! ## Place cells, `one_hot` description (`PlaceCells.get_state`)

For `description == "one_hot"` the code computes
`closest_centres = np.argmin(np.abs(dist), axis=0)` and
`firingrate = np.eye(self.n)[closest_centres].T`, then rescales every entry
through `firingrate * (max_fr - min_fr) + min_fr` (Neurons.py:812-821).
The distances come from the Geometry Provider (an external collaborator)
honouring the population's wall-geometry policy, so they are taken here as
an input list, one entry per cell. -/

/-- Embedding of `np.argmin(np.abs(dist), axis=0)` for a single query position
(Neurons.py:813). -/
def closestCentre (dists : List ℚ) : ℕ :=
  argminIdx (dists.map (fun d => |d|))

/-- The model `PlaceCells.get_state` in `one_hot` mode at a single query position,
including the final `[0,1] -> [min_fr, max_fr]` rescale
(Neurons.py:812-821). -/
def placeCellsOneHotState (dists : List ℚ) (minFr maxFr : ℚ) : List ℚ :=
  (List.range dists.length).map
    (fun i => (if i = closestCentre dists then 1 else 0) * (maxFr - minFr) + minFr)

/-! ## Grid cells (`GridCells.get_state`)

A grid cell's rate is built from three cosine gratings.  At construction
(Neurons.py:1010-1017) the basis vectors are `w1 = rotate([1,0], orientation)`,
`w2 = rotate(w1, pi/3)`, `w3 = rotate(w1, 2*pi/3)`.  At evaluation
(Neurons.py:1043-1066) the cell's origin is
`gridscale * phase_offset / (2*pi)`, the phases are
`phi_k = (2*pi/gridscale) * (pos - origin) . w_k`, and the rate is either the
rectified mean of the three cosines or the positively shifted mean, finally
rescaled to `[min_fr, max_fr]`. -/

open Real

/-- Modelled from the spec: `utils.rotate` (outside `src/`) rotates a 2D
vector counterclockwise by the given angle ("three direction vectors at 60
degrees from each other, rotated by orientation"). -/
noncomputable def rotate (v : ℝ × ℝ) (theta : ℝ) : ℝ × ℝ :=
  (Real.cos theta * v.1 - Real.sin theta * v.2,
   Real.sin theta * v.1 + Real.cos theta * v.2)

/-- The three basis vectors of one grid cell (Neurons.py:1010-1017). -/
noncomputable def gridBasisVectors (orientation : ℝ) : (ℝ × ℝ) × (ℝ × ℝ) × (ℝ × ℝ) :=
  (rotate (1, 0) orientation,
   rotate (rotate (1, 0) orientation) (Real.pi / 3),
   rotate (rotate (1, 0) orientation) (2 * Real.pi / 3))

/-- The cell's spatial origin `gridscale * phase_offset / (2*pi)`
(Neurons.py:1043). -/
noncomputable def gridOrigin (gridscale : ℝ) (phaseOffset : ℝ × ℝ) : ℝ × ℝ :=
  (gridscale * phaseOffset.1 / (2 * Real.pi),
   gridscale * phaseOffset.2 / (2 * Real.pi))

/-- One phase `phi_k = (2*pi/gridscale) * ((pos - origin) . w)`
(Neurons.py:1044-1053); `utils.get_vectors_between(origin, pos)` is modelled
from the spec as `pos - origin`. -/
noncomputable def gridPhi (gridscale : ℝ) (origin pos w : ℝ × ℝ) : ℝ :=
  (2 * Real.pi / gridscale) *
    ((pos.1 - origin.1) * w.1 + (pos.2 - origin.2) * w.2)

/-- The model `GridCells.get_state` for one cell at one position (Neurons.py:1043-1066):
rectified or shifted mean of the three cosines, rescaled to
`[min_fr, max_fr]`.  (For any other description string the source leaves the
rate unbound and crashes; `0` is used as a junk value there.) -/
noncomputable def gridCellState (description : String) (gridscale orientation : ℝ)
    (phaseOffset pos : ℝ × ℝ) (minFr maxFr : ℝ) : ℝ :=
  (if description = "three_rectified_cosines" then
    max ((1/3) * (Real.cos (gridPhi gridscale (gridOrigin gridscale phaseOffset) pos
        (gridBasisVectors orientation).1)
      + Real.cos (gridPhi gridscale (gridOrigin gridscale phaseOffset) pos
        (gridBasisVectors orientation).2.1)
      + Real.cos (gridPhi gridscale (gridOrigin gridscale phaseOffset) pos
        (gridBasisVectors orientation).2.2))) 0
  else if description = "three_shifted_cosines" then
    (2/3) * ((1/3) * (Real.cos (gridPhi gridscale (gridOrigin gridscale phaseOffset) pos
        (gridBasisVectors orientation).1)
      + Real.cos (gridPhi gridscale (gridOrigin gridscale phaseOffset) pos
        (gridBasisVectors orientation).2.1)
      + Real.cos (gridPhi gridscale (gridOrigin gridscale phaseOffset) pos
        (gridBasisVectors orientation).2.2)) + 1/2)
  else 0) * (maxFr - minFr) + minFr

/-! ## The population container: `Neurons.update`, history, spikes

`Neurons.update` (Neurons.py:141-167) advances the Ornstein-Uhlenbeck noise,
forces the firing rate to zero when `np.isnan(self.Agent.pos[0])` (only the
*first* coordinate is tested), otherwise consults the type-specific
`get_state`, adds the noise vector, and, when `save_history` is on, appends
`(t, firingrate, spikes)` to the history (`save_to_history`,
Neurons.py:540-546).  `reset_history` (Neurons.py:548-551) empties every
history sequence.  A possibly-NaN float coordinate is modelled as
`Option ℝ`, with `none` standing for NaN. -/

structure NeuronsHistory where
  t : List ℝ
  firingrate : List (List ℝ)
  spikes : List (List Bool)

/-- The method `Neurons.reset_history` (Neurons.py:548-551): every key is emptied. -/
def resetHistory (_h : NeuronsHistory) : NeuronsHistory := ⟨[], [], []⟩

/-- The method `Neurons.save_to_history` (Neurons.py:540-546): appends the current time,
firing-rate list and spike list. -/
def saveToHistory (h : NeuronsHistory) (t : ℝ) (fr : List ℝ) (sp : List Bool) :
    NeuronsHistory :=
  ⟨h.t ++ [t], h.firingrate ++ [fr], h.spikes ++ [sp]⟩

/-- Modelled from the spec: `utils.ornstein_uhlenbeck` is outside `src/`.
Spec 4.1: the random term has standard deviation
`noise_std * sqrt(2*dt/coherence_time)` (`sample` is the unit-variance
draw) and the drift term decays the noise toward zero with rate
`dt/coherence_time`. -/
noncomputable def ornsteinUhlenbeck (dt x noiseScale coherenceTime sample : ℝ) : ℝ :=
  -x * (dt / coherenceTime) + noiseScale * Real.sqrt (2 * dt / coherenceTime) * sample

/-- The per-cell Bernoulli spike draw of `save_to_history`
(`np.random.uniform(0,1,...) < dt * firingrate`, Neurons.py:541-543);
`uniforms` is the list of uniform draws. -/
noncomputable def computeSpikes (dt : ℝ) (fr : List ℝ) (uniforms : List ℝ) : List Bool :=
  (uniforms.zip fr).map (fun p => decide (p.1 < dt * p.2))

structure NeuronsState where
  firingrate : List ℝ
  noise : List ℝ
  history : NeuronsHistory

/-- The method `Neurons.update` (Neurons.py:141-167).  `getStateResult` is the value the
type-specific `get_state()` would return this tick; it is only used when
the first position coordinate is not NaN.  `noiseSamples` and
`spikeUniforms` are the random draws consumed this tick. -/
noncomputable def neuronsUpdate (n : ℕ) (noiseStd noiseCoherenceTime : ℝ)
    (saveHistory : Bool) (dt t : ℝ) (pos : Option ℝ × Option ℝ)
    (getStateResult : List ℝ) (noiseSamples spikeUniforms : List ℝ)
    (st : NeuronsState) : NeuronsState :=
  let noise := (st.noise.zip noiseSamples).map
    (fun p => p.1 + ornsteinUhlenbeck dt p.1 noiseStd noiseCoherenceTime p.2)
  let base := if pos.1.isNone then List.replicate n 0 else getStateResult
  let firingrate := (base.zip noise).map (fun p => p.1 + p.2)
  let history := if saveHistory then
      saveToHistory st.history t firingrate (computeSpikes dt firingrate spikeUniforms)
    else st.history
  ⟨firingrate, noise, history⟩

/-- The model `SpeedCell.get_state` at `evaluate_at="agent"` (Neurons.py:2192-2211):
`vel` is the last velocity in the agent's history, the rate is
`|vel| / one_sigma_speed` rescaled to `[min_fr, max_fr]`, with
`one_sigma_speed = speed_mean + speed_std` fixed at construction
(Neurons.py:2185). -/
noncomputable def speedCellGetState (velLast : ℝ × ℝ)
    (speedMean speedStd minFr maxFr : ℝ) : List ℝ :=
  [Real.sqrt (velLast.1^2 + velLast.2^2) / (speedMean + speedStd)
    * (maxFr - minFr) + minFr]

/-! ## Vector-cell receptive fields and `ObjectVectorCells.get_state`

The per-cell response is a Gaussian in preferred distance times a von Mises
in preferred bearing (spec 4.4).  `utils.gaussian`, `utils.von_mises`,
`utils.get_angle` and the Geometry Provider's occlusion-aware distances are
external collaborators, modelled from the spec below.
`ObjectVectorCells.get_state` (Neurons.py:1793-1917) early-returns an
all-zero `(N_cells, N_pos)` matrix when the environment holds no objects
(Neurons.py:1828-1830); otherwise it sums the masked Gaussian x von-Mises
responses over objects and rescales to `[min_fr, max_fr]`. -/

/-- Modelled from the spec: the Geometry Provider's distance query with a
`euclidean` wall-geometry policy (no occluding walls) is the plain
Euclidean distance. -/
noncomputable def euclideanDist (a b : ℝ × ℝ) : ℝ :=
  Real.sqrt ((a.1 - b.1)^2 + (a.2 - b.2)^2)

/-- Modelled from the spec: `utils.gaussian(x, mu, sigma, norm=1)` (outside
`src/`), a Gaussian bump of the distance around the preferred distance,
normalised to peak 1. -/
noncomputable def gaussianRf (x mu sigma : ℝ) : ℝ :=
  Real.exp (-(x - mu)^2 / (2 * sigma^2))

/-- Modelled from the spec: `utils.von_mises(theta, mu, sigma, norm=1)`
(outside `src/`), the circular Gaussian analogue with concentration
`1/sigma^2`, normalised to peak 1. -/
noncomputable def vonMises (theta mu sigma : ℝ) : ℝ :=
  Real.exp ((Real.cos (theta - mu) - 1) / sigma^2)

/-- Modelled from the spec: `utils.get_angle` (outside `src/`), the bearing
of a 2D vector. -/
noncomputable def getAngle (v : ℝ × ℝ) : ℝ :=
  Complex.arg ⟨v.1, v.2⟩

/-- One object-vector cell's tuning parameters (spec 3, TuningProfile). -/
structure OVCCell where
  tuningDistance : ℝ
  sigmaDistance : ℝ
  tuningAngle : ℝ
  sigmaAngle : ℝ
  tuningType : ℤ

/-- One environment object: a position and an integer type id. -/
structure EnvObject where
  loc : ℝ × ℝ
  objType : ℤ

/-- The model `ObjectVectorCells.get_state` (Neurons.py:1793-1917) over a batch of
query positions.  `headBearing` is the already-resolved reference bearing
(`utils.get_angle(head_direction)` in egocentric mode, `0` in allocentric
mode).  With no objects the code returns `np.zeros((N_cells, N_pos))`
*before* the `[min_fr, max_fr]` rescale; otherwise each cell sums its
Gaussian x von-Mises response over the objects whose type matches its
preferred type, then rescales. -/
noncomputable def ovcGetState (cells : List OVCCell) (objects : List EnvObject)
    (positions : List (ℝ × ℝ)) (headBearing : ℝ) (minFr maxFr : ℝ) :
    List (List ℝ) :=
  if objects.length = 0 then
    List.replicate cells.length (List.replicate positions.length 0)
  else
    cells.map (fun cell =>
      positions.map (fun pos =>
        (objects.map (fun obj =>
          gaussianRf (euclideanDist pos obj.loc) cell.tuningDistance cell.sigmaDistance
            * vonMises (getAngle (obj.loc.1 - pos.1, obj.loc.2 - pos.2) - headBearing)
                cell.tuningAngle cell.sigmaAngle
            * (if obj.objType = cell.tuningType then 1 else 0))).sum
          * (maxFr - minFr) + minFr))

/-! ## Place cells, `gaussian` description (`PlaceCells.get_state`) -/

/-- The model `PlaceCells.get_state` in `gaussian` mode at one query position
(Neurons.py:793-821): per cell, `exp(-d^2/(2*w^2))` of the distance to the
cell's centre, rescaled to `[min_fr, max_fr]`.  The distances use the
Geometry Provider; with a euclidean wall-geometry policy they are
`euclideanDist`. -/
noncomputable def placeCellsGaussianState (centres : List (ℝ × ℝ))
    (width minFr maxFr : ℝ) (pos : ℝ × ℝ) : List ℝ :=
  centres.map (fun c =>
    Real.exp (-(euclideanDist c pos)^2 / (2 * width^2)) * (maxFr - minFr) + minFr)

/-! ## Feed-forward layer (`FeedForwardLayer.get_state`, `"last"` mode)

In `"last"` mode (Neurons.py:2324-2356) the layer starts from
`V = np.zeros(self.n)`, adds `w @ layer.firingrate` for every stored input
layer, adds the biases, and applies `utils.activate` (an external
collaborator, modelled from the spec: linear / sigmoid / relu).  Each input
is a weight matrix paired with the input layer's currently stored firing
rate. -/

/-- Dot product of two real lists (`np.matmul` row step). -/
def dotList : List ℝ → List ℝ → ℝ
  | a :: as, b :: bs => a * b + dotList as bs
  | _, _ => 0

/-- Embedding of `np.matmul(w, I)` for a matrix given as a list of rows. -/
def matvec (w : List (List ℝ)) (v : List ℝ) : List ℝ :=
  w.map (fun row => dotList row v)

/-- Elementwise vector addition (`V += ...`). -/
def vecAdd (a b : List ℝ) : List ℝ :=
  (a.zip b).map (fun p => p.1 + p.2)

/-- Modelled from the spec: `utils.activate` (outside `src/`) supports a
linear activation (identity), a sigmoid parameterised by
max/min/midpoint/width, and a rectified-linear with gain and threshold. -/
inductive ActivationSpec where
  | linear : ActivationSpec
  | sigmoid (maxFr minFr midX width : ℝ) : ActivationSpec
  | relu (gain threshold : ℝ) : ActivationSpec

/-- Modelled from the spec: the elementwise activation itself. -/
noncomputable def activate : ActivationSpec → ℝ → ℝ
  | .linear, x => x
  | .sigmoid mx mn mid w, x => mn + (mx - mn) / (1 + Real.exp (-(x - mid) / w))
  | .relu g t, x => g * max (x - t) 0

/-- The model `FeedForwardLayer.get_state` at `evaluate_at="last"`
(Neurons.py:2333-2356): `V = zeros(n)`, then `V += w @ I` over the stored
inputs (`I` = that layer's current `firingrate`), then `V += biases`, then
the activation. -/
noncomputable def fflGetStateLast (nThis : ℕ)
    (inputs : List (List (List ℝ) × List ℝ)) (biases : List ℝ)
    (act : ActivationSpec) : List ℝ :=
  (vecAdd (inputs.foldl (fun V wI => vecAdd V (matvec wI.1 wI.2))
      (List.replicate nThis 0)) biases).map (activate act)

/-- The `n x n` identity weight matrix. -/
def idMatrix (n : ℕ) : List (List ℝ) :=
  (List.range n).map (fun i => (List.range n).map (fun j => if i = j then 1 else 0))

/-! ## Head-direction and velocity cells

`HeadDirectionCells.get_state` (Neurons.py:2018-2052, 2D branch) resolves
the head direction from `evaluate_at`/kwargs — the agent's own heading when
`evaluate_at == "agent"`, else the `head_direction` kwarg, else the
(deprecated) `vel` kwarg, else the default `[1, 0]` — and evaluates a von
Mises bump of its bearing around each cell's preferred angle, rescaled to
`[min_fr, max_fr]`.  `VelocityCells.get_state` (Neurons.py:2141-2147) calls
the head-direction computation with the *same* `evaluate_at` and kwargs and
multiplies every rate by
`np.linalg.norm(Agent.velocity) / one_sigma_speed`, where
`one_sigma_speed = Agent.speed_mean + Agent.speed_std` was fixed at
construction (Neurons.py:2131). -/

/-- The keyword arguments `HeadDirectionCells.get_state` inspects. -/
structure HDKwargs where
  head_direction : Option (ℝ × ℝ)
  vel : Option (ℝ × ℝ)

/-- The agent state the head-direction/velocity models read. -/
structure AgentRef where
  headDirection : ℝ × ℝ
  velocity : ℝ × ℝ
  speedMean : ℝ
  speedStd : ℝ

/-- The head-direction resolution cascade of `HeadDirectionCells.get_state`
(Neurons.py:2022-2036, 2D). -/
def resolveHeadDirection (evaluateAt : String) (kw : HDKwargs) (ag : AgentRef) :
    ℝ × ℝ :=
  if evaluateAt = "agent" then ag.headDirection
  else
    match kw.head_direction with
    | some hd => hd
    | none =>
      match kw.vel with
      | some v => v
      | none => (1, 0)

/-- Embedding of `np.linalg.norm` of a 2D vector. -/
noncomputable def norm2 (v : ℝ × ℝ) : ℝ := Real.sqrt (v.1^2 + v.2^2)

/-- The model `HeadDirectionCells.get_state` (2D branch, Neurons.py:2042-2052):
von Mises response of the resolved heading's bearing around each preferred
angle (`prefs` pairs each preferred angle with its angular tuning width),
rescaled to `[min_fr, max_fr]`. -/
noncomputable def hdcGetState (prefs : List (ℝ × ℝ)) (minFr maxFr : ℝ)
    (evaluateAt : String) (kw : HDKwargs) (ag : AgentRef) : List ℝ :=
  prefs.map (fun pa =>
    vonMises (getAngle (resolveHeadDirection evaluateAt kw ag)) pa.1 pa.2
      * (maxFr - minFr) + minFr)

/-- The model `VelocityCells.get_state` (Neurons.py:2141-2147): the head-direction
rates for the same `evaluate_at`/kwargs, each multiplied by
`norm(Agent.velocity) / one_sigma_speed`. -/
noncomputable def velocityCellsGetState (prefs : List (ℝ × ℝ)) (minFr maxFr : ℝ)
    (oneSigmaSpeed : ℝ) (evaluateAt : String) (kw : HDKwargs) (ag : AgentRef) :
    List ℝ :=
  (hdcGetState prefs minFr maxFr evaluateAt kw ag).map
    (fun r => r * (norm2 ag.velocity / oneSigmaSpeed))

/-! ## Theorems -/

lemma firstWallId_eq (l : List (ℚ × ℚ)) :
    firstWallId l = argmaxIdx (l.map boundaryVectorPreference) := rfl

lemma boundaryVectorPreference_of_valid {lam : ℚ × ℚ} (h : ValidIntercept lam) :
    boundaryVectorPreference lam = 1 / lam.1 := by
  obtain ⟨h1, h2, h3⟩ := h
  unfold boundaryVectorPreference
  rw [if_neg (by linarith), if_neg (by linarith), if_neg (by linarith), if_pos h1]

lemma boundaryVectorPreference_pos_iff (lam : ℚ × ℚ) :
    0 < boundaryVectorPreference lam ↔ ValidIntercept lam := by
  constructor
  · intro h
    unfold boundaryVectorPreference at h
    split_ifs at h with h1 h2 h3 h4
    · linarith
    · linarith
    · linarith
    · exact ⟨h4, le_of_not_lt h2, le_of_not_lt h1⟩
    · linarith
  · intro h
    rw [boundaryVectorPreference_of_valid h]
    exact one_div_pos.mpr h.1

lemma argmaxIdx_lt_length : ∀ (l : List ℚ), l ≠ [] → argmaxIdx l < l.length
  | [], h => absurd rfl h
  | [_], _ => by simp [argmaxIdx]
  | x :: y :: xs, _ => by
    have ih := argmaxIdx_lt_length (y :: xs) (by simp)
    unfold argmaxIdx
    dsimp only
    split
    · exact Nat.succ_lt_succ ih
    · simp

lemma argmaxIdx_is_max : ∀ (l : List ℚ), ∀ i, i < l.length →
    l.getD i 0 ≤ l.getD (argmaxIdx l) 0
  | [], i, hi => by simp at hi
  | [a], i, hi => by
    have hi0 : i = 0 := by
      have : i < 1 := by simpa using hi
      omega
    subst hi0
    simp [argmaxIdx]
  | x :: y :: xs, i, hi => by
    have ih := argmaxIdx_is_max (y :: xs)
    unfold argmaxIdx
    dsimp only
    by_cases h : x < (y :: xs).getD (argmaxIdx (y :: xs)) 0
    · -- head is strictly below the max of the tail: recurse
      rw [if_pos h]
      match i with
      | 0 => simpa using le_of_lt h
      | i + 1 =>
        have hi2 : i < (y :: xs).length := Nat.lt_of_succ_lt_succ (by simpa using hi)
        simpa using ih i hi2
    · -- head attains the max
      rw [if_neg h]
      match i with
      | 0 => simp
      | i + 1 =>
        have hi2 : i < (y :: xs).length := Nat.lt_of_succ_lt_succ (by simpa using hi)
        have h1 := ih i hi2
        have h2 : (y :: xs).getD (argmaxIdx (y :: xs)) 0 ≤ x := le_of_not_lt h
        simpa using le_trans h1 h2

lemma argminIdx_lt_length : ∀ (l : List ℚ), l ≠ [] → argminIdx l < l.length
  | [], h => absurd rfl h
  | [_], _ => by simp [argminIdx]
  | x :: y :: xs, _ => by
    have ih := argminIdx_lt_length (y :: xs) (by simp)
    unfold argminIdx
    dsimp only
    split
    · exact Nat.succ_lt_succ ih
    · simp

lemma argminIdx_is_min : ∀ (l : List ℚ), ∀ i, i < l.length →
    l.getD (argminIdx l) 0 ≤ l.getD i 0
  | [], i, hi => by simp at hi
  | [a], i, hi => by
    have hi0 : i = 0 := by
      have : i < 1 := by simpa using hi
      omega
    subst hi0
    simp [argminIdx]
  | x :: y :: xs, i, hi => by
    have ih := argminIdx_is_min (y :: xs)
    unfold argminIdx
    dsimp only
    by_cases h : (y :: xs).getD (argminIdx (y :: xs)) 0 < x
    · rw [if_pos h]
      match i with
      | 0 => simpa using le_of_lt h
      | i + 1 =>
        have hi2 : i < (y :: xs).length := Nat.lt_of_succ_lt_succ (by simpa using hi)
        simpa using ih i hi2
    · rw [if_neg h]
      match i with
      | 0 => simp
      | i + 1 =>
        have hi2 : i < (y :: xs).length := Nat.lt_of_succ_lt_succ (by simpa using hi)
        have h1 := ih i hi2
        have h2 : x ≤ (y :: xs).getD (argminIdx (y :: xs)) 0 := le_of_not_lt h
        simpa using le_trans h2 h1

lemma getD_map_boundaryVectorPreference (l : List (ℚ × ℚ)) (i : ℕ) (hi : i < l.length) :
    (l.map boundaryVectorPreference).getD i 0
      = boundaryVectorPreference (l.getD i (0, 0)) := by
  rw [List.getD_eq_get _ _ (by simpa using hi), List.getD_eq_get _ _ hi, List.get_map]

/-- Claim C1: in the boundary-vector cell model, provided at least one valid
intersection exists for the test ray, the wall selected by
`firstWallId` (whose ray parameter `distToFirstWall` is fed into the
Gaussian(distance) x von-Mises(angle) product) has a strictly positive ray
parameter and a wall-segment parameter in `[0, 1]`, and among all valid
intersections its ray parameter is minimal; intersections with non-positive
ray parameter or out-of-range wall parameter are never selected. -/
theorem bvc_selects_nearest_valid_wall (intercepts : List (ℚ × ℚ))
    (hex : ∃ lam ∈ intercepts, ValidIntercept lam) :
    firstWallId intercepts < intercepts.length ∧
    ValidIntercept (intercepts.getD (firstWallId intercepts) (0, 0)) ∧
    distToFirstWall intercepts = (intercepts.getD (firstWallId intercepts) (0, 0)).1 ∧
    ∀ lam ∈ intercepts, ValidIntercept lam →
      (intercepts.getD (firstWallId intercepts) (0, 0)).1 ≤ lam.1 := by
  obtain ⟨lam0, hmem0, hv0⟩ := hex
  have hne : intercepts ≠ [] := List.ne_nil_of_mem hmem0
  have hmapne : intercepts.map boundaryVectorPreference ≠ [] := by
    simpa using hne
  have hjlt : firstWallId intercepts < intercepts.length := by
    have := argmaxIdx_lt_length _ hmapne
    simpa [firstWallId] using this
  -- the preference of the selected wall dominates every wall's preference
  have hdom : ∀ i, i < intercepts.length →
      boundaryVectorPreference (intercepts.getD i (0, 0)) ≤
        boundaryVectorPreference (intercepts.getD (firstWallId intercepts) (0, 0)) := by
    intro i hi
    have h := argmaxIdx_is_max (intercepts.map boundaryVectorPreference) i (by simpa using hi)
    rw [← firstWallId_eq] at h
    rw [getD_map_boundaryVectorPreference _ _ hi,
      getD_map_boundaryVectorPreference _ _ hjlt] at h
    exact h
  -- the witness valid wall has positive preference
  obtain ⟨n0, hget0⟩ := List.mem_iff_get.mp hmem0
  have hidx0 : intercepts.getD n0.val (0, 0) = lam0 := by
    rw [List.getD_eq_get _ _ n0.isLt, Fin.eta, hget0]
  have hpos : 0 < boundaryVectorPreference
      (intercepts.getD (firstWallId intercepts) (0, 0)) := by
    have h0 : 0 < boundaryVectorPreference lam0 :=
      (boundaryVectorPreference_pos_iff lam0).mpr hv0
    have := hdom n0.val n0.isLt
    rw [hidx0] at this
    linarith
  have hvj : ValidIntercept (intercepts.getD (firstWallId intercepts) (0, 0)) :=
    (boundaryVectorPreference_pos_iff _).mp hpos
  refine ⟨hjlt, hvj, rfl, ?_⟩
  intro lam hmem hv
  obtain ⟨m, hgetm⟩ := List.mem_iff_get.mp hmem
  have hidxm : intercepts.getD m.val (0, 0) = lam := by
    rw [List.getD_eq_get _ _ m.isLt, Fin.eta, hgetm]
  have h := hdom m.val m.isLt
  rw [hidxm, boundaryVectorPreference_of_valid hv, boundaryVectorPreference_of_valid hvj] at h
  have h1 := hv.1
  have h2 := hvj.1
  have := (div_le_div_iff h1 h2).mp h
  linarith

/-- Witness for `bvc_selects_nearest_valid_wall` at `testIntercepts`. -/
theorem bvc_selects_nearest_valid_wall_witness :
    (∃ lam ∈ testIntercepts, ValidIntercept lam) ∧
    (firstWallId testIntercepts < testIntercepts.length ∧
      ValidIntercept (testIntercepts.getD (firstWallId testIntercepts) (0, 0)) ∧
      distToFirstWall testIntercepts =
        (testIntercepts.getD (firstWallId testIntercepts) (0, 0)).1 ∧
      ∀ lam ∈ testIntercepts, ValidIntercept lam →
        (testIntercepts.getD (firstWallId testIntercepts) (0, 0)).1 ≤ lam.1) :=
  ⟨by norm_num [testIntercepts, ValidIntercept],
   bvc_selects_nearest_valid_wall _ (by norm_num [testIntercepts, ValidIntercept])⟩

lemma getD_map_abs (l : List ℚ) (i : ℕ) (hi : i < l.length) :
    (l.map (fun d => |d|)).getD i 0 = |l.getD i 0| := by
  rw [List.getD_eq_get _ _ (by simpa using hi), List.getD_eq_get _ _ hi, List.get_map]

lemma getD_range_map (f : ℕ → ℚ) (n i : ℕ) (hi : i < n) :
    ((List.range n).map f).getD i 0 = f i := by
  rw [List.getD_eq_get _ _ (by simpa using hi), List.get_map, List.get_range]

lemma closestCentre_lt_length (d : ℚ) (ds : List ℚ) :
    closestCentre (d :: ds) < (d :: ds).length := by
  have := argminIdx_lt_length ((d :: ds).map (fun x => |x|)) (by simp)
  simpa [closestCentre] using this

/-- Claim C2 (amended): for a `one_hot` place-cell population with at least one
cell and `min_fr ≠ max_fr`, the rate vector has exactly one entry equal to
`max_fr` — at the index of a centre whose (wall-geometry) distance to the
query position is minimal — and every other entry equals `min_fr`. -/
theorem place_cells_one_hot_state_spec (d : ℚ) (ds : List ℚ) (mn mx : ℚ)
    (hne : mn ≠ mx) :
    (placeCellsOneHotState (d :: ds) mn mx).length = (d :: ds).length ∧
    closestCentre (d :: ds) < (d :: ds).length ∧
    (placeCellsOneHotState (d :: ds) mn mx).getD (closestCentre (d :: ds)) 0 = mx ∧
    (∀ i < (d :: ds).length, i ≠ closestCentre (d :: ds) →
      (placeCellsOneHotState (d :: ds) mn mx).getD i 0 = mn ∧
      (placeCellsOneHotState (d :: ds) mn mx).getD i 0 ≠ mx) ∧
    ∀ x ∈ d :: ds, |(d :: ds).getD (closestCentre (d :: ds)) 0| ≤ |x| := by
  have hclt := closestCentre_lt_length d ds
  refine ⟨by simp [placeCellsOneHotState], hclt, ?_, ?_, ?_⟩
  · rw [placeCellsOneHotState, getD_range_map _ _ _ hclt, if_pos rfl, one_mul,
      sub_add_cancel]
  · intro i hi hij
    rw [placeCellsOneHotState, getD_range_map _ _ _ hi, if_neg hij, zero_mul, zero_add]
    exact ⟨rfl, hne⟩
  · intro x hmem
    obtain ⟨m, hgetm⟩ := List.mem_iff_get.mp hmem
    have habs := argminIdx_is_min ((d :: ds).map (fun y => |y|)) m.val (by simp)
    rw [show argminIdx ((d :: ds).map fun y => |y|) = closestCentre (d :: ds) from rfl,
      getD_map_abs _ _ hclt, getD_map_abs _ _ m.isLt] at habs
    have hx : (d :: ds).getD m.val 0 = x := by
      rw [List.getD_eq_get _ _ m.isLt, Fin.eta, hgetm]
    rwa [hx] at habs

/-- Witness for `place_cells_one_hot_state_spec` with distances `[0, 1]`
and `min_fr = 0`, `max_fr = 1`. -/
theorem place_cells_one_hot_state_spec_witness :
    ((0 : ℚ) ≠ 1) ∧
    ((placeCellsOneHotState [0, 1] 0 1).length = [(0 : ℚ), 1].length ∧
      closestCentre [0, 1] < [(0 : ℚ), 1].length ∧
      (placeCellsOneHotState [0, 1] 0 1).getD (closestCentre [0, 1]) 0 = 1 ∧
      (∀ i < [(0 : ℚ), 1].length, i ≠ closestCentre [0, 1] →
        (placeCellsOneHotState [0, 1] 0 1).getD i 0 = 0 ∧
        (placeCellsOneHotState [0, 1] 0 1).getD i 0 ≠ 1) ∧
      ∀ x ∈ [(0 : ℚ), 1], |[(0 : ℚ), 1].getD (closestCentre [0, 1]) 0| ≤ |x|) :=
  ⟨by norm_num, place_cells_one_hot_state_spec 0 [1] 0 1 (by norm_num)⟩

/-- Claim C2 counterexample: the claim as stated fails when
`min_fr = max_fr`: with distances `[0, 1]` and `min_fr = max_fr = 1` every
cell's rate equals `max_fr`, so it is not the case that *exactly one* cell
fires at `max_fr`. -/
theorem place_cells_one_hot_not_unique_max :
    ¬ ∃! i : Fin 2, (placeCellsOneHotState [0, 1] 1 1).getD i.val 0 = 1 := by
  have hval : placeCellsOneHotState [0, 1] 1 1 = [1, 1] := by
    norm_num [placeCellsOneHotState, closestCentre, argminIdx, List.range_succ]
  rw [hval]
  rintro ⟨i, _, huniq⟩
  have h0 : (0 : Fin 2) = i := huniq 0 (by simp)
  have h1 : (1 : Fin 2) = i := huniq 1 (by simp)
  rw [← h0] at h1
  exact absurd h1 (by decide)

lemma gridBasisVectors_eq (θ : ℝ) :
    gridBasisVectors θ =
      ((Real.cos θ, Real.sin θ),
       (Real.cos (θ + Real.pi/3), Real.sin (θ + Real.pi/3)),
       (Real.cos (θ + 2*Real.pi/3), Real.sin (θ + 2*Real.pi/3))) := by
  unfold gridBasisVectors rotate
  rw [Real.cos_add θ (Real.pi/3), Real.sin_add θ (Real.pi/3),
    Real.cos_add θ (2*Real.pi/3), Real.sin_add θ (2*Real.pi/3)]
  simp only [Prod.mk.injEq]
  refine ⟨⟨by ring, by ring⟩, ⟨by ring, by ring⟩, by ring, by ring⟩

lemma cos_two_pi_div_three : Real.cos (2*Real.pi/3) = -(1/2) := by
  rw [show 2*Real.pi/3 = Real.pi - Real.pi/3 by ring, Real.cos_pi_sub,
    Real.cos_pi_div_three]

lemma cos_shift_identity (θ : ℝ) :
    Real.cos (θ + 2*Real.pi/3) = Real.cos (θ + Real.pi/3) - Real.cos θ := by
  have h := Real.cos_add_cos (θ + 2*Real.pi/3) θ
  rw [show (θ + 2*Real.pi/3 + θ)/2 = θ + Real.pi/3 by ring,
    show (θ + 2*Real.pi/3 - θ)/2 = Real.pi/3 by ring,
    Real.cos_pi_div_three] at h
  linarith

lemma sin_shift_identity (θ : ℝ) :
    Real.sin (θ + 2*Real.pi/3) = Real.sin (θ + Real.pi/3) - Real.sin θ := by
  have h := Real.sin_sub_sin (θ + 2*Real.pi/3) (-θ)
  rw [Real.sin_neg,
    show (θ + 2*Real.pi/3 - -θ)/2 = θ + Real.pi/3 by ring,
    show (θ + 2*Real.pi/3 + -θ)/2 = Real.pi/3 by ring,
    Real.cos_pi_div_three] at h
  linarith

/-- The inequality behind the shifted-cosines mode: for phases satisfying
`phi3 = phi2 - phi1` (which the three 60-degree basis vectors force), the sum
of the three cosines is at least `-3/2`. -/
lemma cos_sum_three_ge (a b : ℝ) :
    -(3/2) ≤ Real.cos a + Real.cos b + Real.cos (b - a) := by
  nlinarith [sq_nonneg (1 + Real.cos a + Real.cos b),
    sq_nonneg (Real.sin a + Real.sin b),
    Real.sin_sq_add_cos_sq a, Real.sin_sq_add_cos_sq b,
    Real.cos_sub b a]

/-- Claim C8: in `three_shifted_cosines` mode the pre-rescale rate
`(2/3)*((1/3)*(cos phi1 + cos phi2 + cos phi3) + 1/2)` is nonnegative at
every position (because `phi3 = phi2 - phi1` always holds for the three
basis directions), so with `min_fr = 0` and `max_fr = 1` the returned rate
is never negative. -/
theorem grid_shifted_cosines_nonneg (g θ : ℝ) (offset p : ℝ × ℝ) :
    0 ≤ gridCellState "three_shifted_cosines" g θ offset p 0 1 := by
  rw [gridCellState, if_neg (by decide), if_pos rfl, gridBasisVectors_eq]
  have hphi3 : gridPhi g (gridOrigin g offset) p
      (Real.cos (θ + 2*Real.pi/3), Real.sin (θ + 2*Real.pi/3)) =
      gridPhi g (gridOrigin g offset) p (Real.cos (θ + Real.pi/3), Real.sin (θ + Real.pi/3))
        - gridPhi g (gridOrigin g offset) p (Real.cos θ, Real.sin θ) := by
    rw [cos_shift_identity, sin_shift_identity]
    unfold gridPhi
    ring
  rw [hphi3]
  have h := cos_sum_three_ge
    (gridPhi g (gridOrigin g offset) p (Real.cos θ, Real.sin θ))
    (gridPhi g (gridOrigin g offset) p (Real.cos (θ + Real.pi/3), Real.sin (θ + Real.pi/3)))
  nlinarith [h]

lemma gridPhi_translate_invariant (g : ℝ) (hg : g ≠ 0) (offset p v w : ℝ × ℝ) :
    gridPhi g (gridOrigin g (offset.1 + 2*Real.pi*v.1/g, offset.2 + 2*Real.pi*v.2/g))
      (p.1 + v.1, p.2 + v.2) w = gridPhi g (gridOrigin g offset) p w := by
  unfold gridPhi gridOrigin
  have hpi : (2 : ℝ) * Real.pi ≠ 0 := by
    have := Real.pi_ne_zero
    positivity
  field_simp
  ring

/-- Translating the evaluation position by `2*g*(cos α, sin α)` leaves
`cos (gridPhi ...)` unchanged whenever `cos (α - β) = n/2` for an integer
`n` — the phase then shifts by `n * 2 * pi`. -/
lemma cos_gridPhi_shift (g : ℝ) (hg : g ≠ 0) (o p : ℝ × ℝ) (α β : ℝ) (n : ℤ)
    (h : Real.cos (α - β) = (n : ℝ) / 2) :
    Real.cos (gridPhi g o (p.1 + 2*g*Real.cos α, p.2 + 2*g*Real.sin α)
      (Real.cos β, Real.sin β))
      = Real.cos (gridPhi g o p (Real.cos β, Real.sin β)) := by
  have hcs : Real.cos α * Real.cos β + Real.sin α * Real.sin β = (n : ℝ) / 2 := by
    rw [← Real.cos_sub]; exact h
  have h1 : gridPhi g o (p.1 + 2*g*Real.cos α, p.2 + 2*g*Real.sin α)
      (Real.cos β, Real.sin β)
      = gridPhi g o p (Real.cos β, Real.sin β)
        + (2*Real.pi/g) * (2*g*(Real.cos α * Real.cos β + Real.sin α * Real.sin β)) := by
    unfold gridPhi
    ring
  have h2 : (2*Real.pi/g) * (2*g*((n : ℝ)/2)) = (n : ℝ) * (2*Real.pi) := by
    field_simp
    ring
  rw [h1, hcs, h2, Real.cos_add_int_mul_two_pi]

/-- Claim C3 (amended): for a grid cell in either mode with `gridscale ≠ 0`:
the firing rate is unchanged when the query position is translated by a
vector `v` and the cell's phase offset is translated by `(2*pi/gridscale)*v`
(equivalently, the cell's spatial origin `gridscale*phase_offset/(2*pi)` is
translated by the same vector `v`); and the rate is periodic along each of
the cell's three basis directions with period `2*gridscale` (not
`gridscale`: adding `gridscale*w_k` shifts the other two phases by an odd
multiple of `pi`). -/
theorem grid_cell_translation_and_periodicity (desc : String) (g θ : ℝ) (hg : g ≠ 0)
    (offset p v : ℝ × ℝ) (mn mx : ℝ) :
    (gridCellState desc g θ (offset.1 + 2*Real.pi*v.1/g, offset.2 + 2*Real.pi*v.2/g)
        (p.1 + v.1, p.2 + v.2) mn mx
      = gridCellState desc g θ offset p mn mx) ∧
    (gridCellState desc g θ offset
        (p.1 + 2*g*(gridBasisVectors θ).1.1, p.2 + 2*g*(gridBasisVectors θ).1.2) mn mx
      = gridCellState desc g θ offset p mn mx) ∧
    (gridCellState desc g θ offset
        (p.1 + 2*g*(gridBasisVectors θ).2.1.1, p.2 + 2*g*(gridBasisVectors θ).2.1.2) mn mx
      = gridCellState desc g θ offset p mn mx) ∧
    (gridCellState desc g θ offset
        (p.1 + 2*g*(gridBasisVectors θ).2.2.1, p.2 + 2*g*(gridBasisVectors θ).2.2.2) mn mx
      = gridCellState desc g θ offset p mn mx) := by
  have hcos0 : ∀ x : ℝ, Real.cos (x - x) = ((2 : ℤ) : ℝ) / 2 := by
    intro x; rw [sub_self, Real.cos_zero]; norm_num
  have hcosm : ∀ x : ℝ, Real.cos (x - (x + Real.pi/3)) = ((1 : ℤ) : ℝ) / 2 := by
    intro x
    rw [show x - (x + Real.pi/3) = -(Real.pi/3) by ring, Real.cos_neg,
      Real.cos_pi_div_three]
    norm_num
  have hcosp : ∀ x : ℝ, Real.cos (x + Real.pi/3 - x) = ((1 : ℤ) : ℝ) / 2 := by
    intro x
    rw [show x + Real.pi/3 - x = Real.pi/3 by ring, Real.cos_pi_div_three]
    norm_num
  have hcosm2 : ∀ x : ℝ, Real.cos (x - (x + 2*Real.pi/3)) = ((-1 : ℤ) : ℝ) / 2 := by
    intro x
    rw [show x - (x + 2*Real.pi/3) = -(2*Real.pi/3) by ring, Real.cos_neg,
      cos_two_pi_div_three]
    norm_num
  have hcosp2 : ∀ x : ℝ, Real.cos (x + 2*Real.pi/3 - x) = ((-1 : ℤ) : ℝ) / 2 := by
    intro x
    rw [show x + 2*Real.pi/3 - x = 2*Real.pi/3 by ring, cos_two_pi_div_three]
    norm_num
  have hcos13 : ∀ x : ℝ, Real.cos (x + Real.pi/3 - (x + 2*Real.pi/3)) = ((1 : ℤ) : ℝ) / 2 := by
    intro x
    rw [show x + Real.pi/3 - (x + 2*Real.pi/3) = -(Real.pi/3) by ring, Real.cos_neg,
      Real.cos_pi_div_three]
    norm_num
  have hcos31 : ∀ x : ℝ, Real.cos (x + 2*Real.pi/3 - (x + Real.pi/3)) = ((1 : ℤ) : ℝ) / 2 := by
    intro x
    rw [show x + 2*Real.pi/3 - (x + Real.pi/3) = Real.pi/3 by ring,
      Real.cos_pi_div_three]
    norm_num
  refine ⟨?_, ?_, ?_, ?_⟩
  · unfold gridCellState
    rw [gridPhi_translate_invariant g hg offset p v,
      gridPhi_translate_invariant g hg offset p v,
      gridPhi_translate_invariant g hg offset p v]
  · unfold gridCellState
    rw [gridBasisVectors_eq]
    dsimp only
    rw [cos_gridPhi_shift g hg _ p θ θ 2 (hcos0 θ),
      cos_gridPhi_shift g hg _ p θ (θ + Real.pi/3) 1 (hcosm θ),
      cos_gridPhi_shift g hg _ p θ (θ + 2*Real.pi/3) (-1) (hcosm2 θ)]
  · unfold gridCellState
    rw [gridBasisVectors_eq]
    dsimp only
    rw [cos_gridPhi_shift g hg _ p (θ + Real.pi/3) θ 1 (hcosp θ),
      cos_gridPhi_shift g hg _ p (θ + Real.pi/3) (θ + Real.pi/3) 2 (hcos0 (θ + Real.pi/3)),
      cos_gridPhi_shift g hg _ p (θ + Real.pi/3) (θ + 2*Real.pi/3) 1 (hcos13 θ)]
  · unfold gridCellState
    rw [gridBasisVectors_eq]
    dsimp only
    rw [cos_gridPhi_shift g hg _ p (θ + 2*Real.pi/3) θ (-1) (hcosp2 θ),
      cos_gridPhi_shift g hg _ p (θ + 2*Real.pi/3) (θ + Real.pi/3) 1 (hcos31 θ),
      cos_gridPhi_shift g hg _ p (θ + 2*Real.pi/3) (θ + 2*Real.pi/3) 2
        (hcos0 (θ + 2*Real.pi/3))]

lemma gridCellState_base_value :
    gridCellState "three_rectified_cosines" 1 0 (0, 0) (0, 0) 0 1 = 1 := by
  have hphi : ∀ w : ℝ × ℝ, gridPhi 1 (gridOrigin 1 (0, 0)) ((0 : ℝ), (0 : ℝ)) w = 0 := by
    intro w; unfold gridPhi gridOrigin; ring
  rw [gridCellState, if_pos rfl, hphi, hphi, hphi, Real.cos_zero]
  norm_num

lemma gridCellState_at_w1_value :
    gridCellState "three_rectified_cosines" 1 0 (0, 0) ((1 : ℝ), 0) 0 1 = 0 := by
  have ha : gridPhi 1 (gridOrigin 1 (0, 0)) ((1 : ℝ), (0 : ℝ))
      (Real.cos 0, Real.sin 0) = 2*Real.pi := by
    unfold gridPhi gridOrigin
    rw [Real.cos_zero]
    ring
  have hb : gridPhi 1 (gridOrigin 1 (0, 0)) ((1 : ℝ), (0 : ℝ))
      (Real.cos ((0 : ℝ) + Real.pi/3), Real.sin ((0 : ℝ) + Real.pi/3)) = Real.pi := by
    unfold gridPhi gridOrigin
    rw [zero_add, Real.cos_pi_div_three]
    ring
  have hc : gridPhi 1 (gridOrigin 1 (0, 0)) ((1 : ℝ), (0 : ℝ))
      (Real.cos ((0 : ℝ) + 2*Real.pi/3), Real.sin ((0 : ℝ) + 2*Real.pi/3)) = -Real.pi := by
    unfold gridPhi gridOrigin
    rw [zero_add, cos_two_pi_div_three]
    ring
  rw [gridCellState, if_pos rfl, gridBasisVectors_eq]
  dsimp only
  rw [ha, hb, hc, Real.cos_two_pi, Real.cos_neg, Real.cos_pi]
  norm_num

lemma gridCellState_shifted_offset_lt_one :
    gridCellState "three_rectified_cosines" 1 0 ((1 : ℝ)/2, 0) ((1 : ℝ)/2, 0) 0 1 < 1 := by
  have hpi := Real.pi_ne_zero
  have ha : gridPhi 1 (gridOrigin 1 ((1 : ℝ)/2, 0)) ((1 : ℝ)/2, (0 : ℝ))
      (Real.cos 0, Real.sin 0) = Real.pi - 1/2 := by
    unfold gridPhi gridOrigin
    rw [Real.cos_zero]
    field_simp
    ring
  have hb : gridPhi 1 (gridOrigin 1 ((1 : ℝ)/2, 0)) ((1 : ℝ)/2, (0 : ℝ))
      (Real.cos ((0 : ℝ) + Real.pi/3), Real.sin ((0 : ℝ) + Real.pi/3))
      = Real.pi/2 - 1/4 := by
    unfold gridPhi gridOrigin
    rw [zero_add, Real.cos_pi_div_three]
    field_simp
    ring
  have hc : gridPhi 1 (gridOrigin 1 ((1 : ℝ)/2, 0)) ((1 : ℝ)/2, (0 : ℝ))
      (Real.cos ((0 : ℝ) + 2*Real.pi/3), Real.sin ((0 : ℝ) + 2*Real.pi/3))
      = 1/4 - Real.pi/2 := by
    unfold gridPhi gridOrigin
    rw [zero_add, cos_two_pi_div_three]
    field_simp
    ring
  rw [gridCellState, if_pos rfl, gridBasisVectors_eq]
  dsimp only
  rw [ha, hb, hc, Real.cos_pi_sub]
  have hcos_half_pos : 0 < Real.cos (1/2) := by
    apply Real.cos_pos_of_mem_Ioo
    constructor
    · have := Real.pi_gt_three
      linarith
    · have := Real.pi_gt_three
      linarith
  have h2 := Real.cos_le_one (Real.pi/2 - 1/4)
  have h3 := Real.cos_le_one (1/4 - Real.pi/2)
  have hmean : (1/3) * (-Real.cos (1/2) + Real.cos (Real.pi/2 - 1/4)
      + Real.cos (1/4 - Real.pi/2)) < 1 := by
    linarith
  have hmax : max ((1/3) * (-Real.cos (1/2) + Real.cos (Real.pi/2 - 1/4)
      + Real.cos (1/4 - Real.pi/2))) 0 < 1 := max_lt hmean one_pos
  linarith

/-- Claim C3 counterexample: the claim as stated is false on two counts, both
at `gridscale = 1`, `orientation = 0`, `phase_offset = (0,0)`, `pos = (0,0)`,
`min_fr = 0`, `max_fr = 1` (rectified mode), where the rate is `1`:
(i) translating both the query position and the stored phase offset by the
same vector `(1/2, 0)` changes the rate (the phase offset lives in radians,
not in metres, so equal translations do not cancel);
(ii) the first basis vector is `w1 = (1, 0)` yet the rate at
`pos + gridscale * w1 = (1, 0)` is `0 ≠ 1`, so the rate is not
`gridscale`-periodic along the basis directions. -/
theorem grid_cell_claim_counterexample :
    (gridBasisVectors (0 : ℝ)).1 = ((1 : ℝ), 0) ∧
    gridCellState "three_rectified_cosines" 1 0 ((1 : ℝ)/2, 0) ((1 : ℝ)/2, 0) 0 1
      ≠ gridCellState "three_rectified_cosines" 1 0 (0, 0) (0, 0) 0 1 ∧
    gridCellState "three_rectified_cosines" 1 0 (0, 0) ((1 : ℝ), 0) 0 1
      ≠ gridCellState "three_rectified_cosines" 1 0 (0, 0) (0, 0) 0 1 := by
  refine ⟨?_, ?_, ?_⟩
  · rw [gridBasisVectors_eq]
    dsimp only
    rw [Real.cos_zero, Real.sin_zero]
  · rw [gridCellState_base_value]
    exact ne_of_lt gridCellState_shifted_offset_lt_one
  · rw [gridCellState_base_value, gridCellState_at_w1_value]
    norm_num

/-- Witness for `grid_cell_translation_and_periodicity` at
`gridscale = 1`, `orientation = 0`, `offset = (0,0)`, `p = (0,0)`,
`v = (1,1)`. -/
theorem grid_cell_translation_and_periodicity_witness :
    ((1 : ℝ) ≠ 0) ∧
    ((gridCellState "three_rectified_cosines" 1 0
        ((0 : ℝ) + 2*Real.pi*1/1, (0 : ℝ) + 2*Real.pi*1/1) ((0 : ℝ) + 1, (0 : ℝ) + 1) 0 1
      = gridCellState "three_rectified_cosines" 1 0 (0, 0) (0, 0) 0 1) ∧
    (gridCellState "three_rectified_cosines" 1 0 (0, 0)
        ((0 : ℝ) + 2*1*(gridBasisVectors (0 : ℝ)).1.1,
         (0 : ℝ) + 2*1*(gridBasisVectors (0 : ℝ)).1.2) 0 1
      = gridCellState "three_rectified_cosines" 1 0 (0, 0) (0, 0) 0 1) ∧
    (gridCellState "three_rectified_cosines" 1 0 (0, 0)
        ((0 : ℝ) + 2*1*(gridBasisVectors (0 : ℝ)).2.1.1,
         (0 : ℝ) + 2*1*(gridBasisVectors (0 : ℝ)).2.1.2) 0 1
      = gridCellState "three_rectified_cosines" 1 0 (0, 0) (0, 0) 0 1) ∧
    (gridCellState "three_rectified_cosines" 1 0 (0, 0)
        ((0 : ℝ) + 2*1*(gridBasisVectors (0 : ℝ)).2.2.1,
         (0 : ℝ) + 2*1*(gridBasisVectors (0 : ℝ)).2.2.2) 0 1
      = gridCellState "three_rectified_cosines" 1 0 (0, 0) (0, 0) 0 1)) :=
  ⟨one_ne_zero,
   grid_cell_translation_and_periodicity "three_rectified_cosines" 1 0 one_ne_zero
     (0, 0) (0, 0) (1, 1) 0 1⟩

/-- Claim C4 (amended): with `noise_std = 0` (under which the noise vector,
zero-initialised, stays all-zero), if the *first* coordinate of the agent's
position is NaN then after `update()` the stored firing-rate vector is all
zeros, whatever the type-specific model would have returned. -/
theorem neurons_update_nan_first_coord_zero (n : ℕ) (τ : ℝ) (sh : Bool)
    (dt t : ℝ) (posSecond : Option ℝ) (getStateResult : List ℝ)
    (noiseSamples spikeUniforms : List ℝ) (st : NeuronsState)
    (hnoise : ∀ x ∈ st.noise, x = 0) :
    ∀ x ∈ (neuronsUpdate n 0 τ sh dt t ((none : Option ℝ), posSecond)
      getStateResult noiseSamples spikeUniforms st).firingrate, x = 0 := by
  intro x hx
  simp only [neuronsUpdate, Option.isNone_none, if_true] at hx
  obtain ⟨⟨a, b⟩, hmem, rfl⟩ := List.mem_map.mp hx
  have ha : a = 0 := List.eq_of_mem_replicate (List.of_mem_zip hmem).1
  have hb : b = 0 := by
    have hmemb := (List.of_mem_zip hmem).2
    obtain ⟨⟨c, s⟩, hmem2, rfl⟩ := List.mem_map.mp hmemb
    have hc : c = 0 := hnoise c (List.of_mem_zip hmem2).1
    rw [hc]
    unfold ornsteinUhlenbeck
    norm_num
  rw [ha, hb, add_zero]

/-- Witness for `neurons_update_nan_first_coord_zero`: one cell, zero prior
noise, NaN first coordinate, a `get_state` that would have returned `[5]`. -/
theorem neurons_update_nan_first_coord_zero_witness :
    (∀ x ∈ (NeuronsState.mk [5] [0] ⟨[], [], []⟩).noise, x = 0) ∧
    (∀ x ∈ (neuronsUpdate 1 0 1 false 1 0 ((none : Option ℝ), some 1)
      [5] [0] [] (NeuronsState.mk [5] [0] ⟨[], [], []⟩)).firingrate, x = 0) :=
  ⟨by simp,
   neurons_update_nan_first_coord_zero 1 1 false 1 0 (some 1) [5] [0] []
     (NeuronsState.mk [5] [0] ⟨[], [], []⟩) (by simp)⟩

/-- Claim C4 counterexample: the claim says a NaN in *any* coordinate forces an
all-zero firing rate, but the code only tests `pos[0]`.  Concretely: a
`SpeedCell` population (whose model reads the velocity, here `(2, 0)`, not
the position) with `speed_mean = speed_std = 1`, `min_fr = 0`, `max_fr = 1`,
`noise_std = 0`, zero noise, at position `(0.5, NaN)` — NaN in the second
coordinate — ends the update with firing rate `[1]`, not all zeros. -/
theorem neurons_update_nan_second_coord_not_zero :
    (neuronsUpdate 1 0 1 false (1/10) 0 ((some (1/2) : Option ℝ), (none : Option ℝ))
        (speedCellGetState (2, 0) 1 1 0 1) [0] []
        (NeuronsState.mk [0] [0] ⟨[], [], []⟩)).firingrate = [1] ∧
    ¬ (∀ x ∈ (neuronsUpdate 1 0 1 false (1/10) 0
        ((some (1/2) : Option ℝ), (none : Option ℝ))
        (speedCellGetState (2, 0) 1 1 0 1) [0] []
        (NeuronsState.mk [0] [0] ⟨[], [], []⟩)).firingrate, x = 0) := by
  have hsqrt : Real.sqrt (4 : ℝ) = 2 := by
    rw [show (4 : ℝ) = 2^2 by norm_num]
    exact Real.sqrt_sq (by norm_num)
  have hfr : (neuronsUpdate 1 0 1 false (1/10) 0
      ((some (1/2) : Option ℝ), (none : Option ℝ))
      (speedCellGetState (2, 0) 1 1 0 1) [0] []
      (NeuronsState.mk [0] [0] ⟨[], [], []⟩)).firingrate = [1] := by
    simp only [neuronsUpdate, speedCellGetState, ornsteinUhlenbeck]
    norm_num [hsqrt]
  refine ⟨hfr, fun hall => ?_⟩
  have h1 : (1 : ℝ) = 0 := hall 1 (by rw [hfr]; simp)
  norm_num at h1

/-- Claim C9: with `save_history = True`, `reset_history()` followed by exactly
one `update()` leaves each of the history sequences `"t"`, `"firingrate"`
and `"spikes"` with length exactly 1. -/
theorem reset_history_then_one_update_lengths (n : ℕ) (noiseStd τ dt t : ℝ)
    (pos : Option ℝ × Option ℝ) (getStateResult : List ℝ)
    (noiseSamples spikeUniforms : List ℝ) (fr0 noise0 : List ℝ) (h : NeuronsHistory) :
    (neuronsUpdate n noiseStd τ true dt t pos getStateResult noiseSamples
        spikeUniforms ⟨fr0, noise0, resetHistory h⟩).history.t.length = 1 ∧
    (neuronsUpdate n noiseStd τ true dt t pos getStateResult noiseSamples
        spikeUniforms ⟨fr0, noise0, resetHistory h⟩).history.firingrate.length = 1 ∧
    (neuronsUpdate n noiseStd τ true dt t pos getStateResult noiseSamples
        spikeUniforms ⟨fr0, noise0, resetHistory h⟩).history.spikes.length = 1 := by
  refine ⟨?_, ?_, ?_⟩ <;> simp [neuronsUpdate, resetHistory, saveToHistory]

/-- Claim C5: with zero objects in the environment, `ObjectVectorCells.get_state`
returns the all-zero matrix of shape `(n_cells, n_positions)` for every
choice of `min_fr`, `max_fr`, reference bearing and tuning parameters. -/
theorem ovc_no_objects_all_zero (cells : List OVCCell) (positions : List (ℝ × ℝ))
    (headBearing minFr maxFr : ℝ) :
    ovcGetState cells [] positions headBearing minFr maxFr
      = List.replicate cells.length (List.replicate positions.length 0) := by
  simp [ovcGetState]

/-- Claim C7: a 3-cell gaussian population with centres
`[(0,0), (0.5,0), (1,0)]` and width `0.2`, queried at `(0,0)` under plain
euclidean distances, returns
`min_fr + (max_fr - min_fr) * [1, exp(-0.5^2/(2*0.2^2)), exp(-1^2/(2*0.2^2))]`. -/
theorem place_cells_gaussian_concrete (mn mx : ℝ) :
    placeCellsGaussianState [(0, 0), (0.5, 0), (1, 0)] 0.2 mn mx (0, 0)
      = [mn + (mx - mn) * 1,
         mn + (mx - mn) * Real.exp (-(0.5 : ℝ)^2 / (2 * (0.2 : ℝ)^2)),
         mn + (mx - mn) * Real.exp (-(1 : ℝ)^2 / (2 * (0.2 : ℝ)^2))] := by
  have h0 : euclideanDist ((0 : ℝ), (0 : ℝ)) ((0 : ℝ), (0 : ℝ)) = 0 := by
    unfold euclideanDist
    norm_num
  have h1 : euclideanDist ((0.5 : ℝ), (0 : ℝ)) ((0 : ℝ), (0 : ℝ)) = 0.5 := by
    unfold euclideanDist
    rw [show ((0.5 : ℝ) - 0)^2 + ((0 : ℝ) - 0)^2 = (0.5 : ℝ)^2 by norm_num]
    exact Real.sqrt_sq (by norm_num)
  have h2 : euclideanDist ((1 : ℝ), (0 : ℝ)) ((0 : ℝ), (0 : ℝ)) = 1 := by
    unfold euclideanDist
    rw [show ((1 : ℝ) - 0)^2 + ((0 : ℝ) - 0)^2 = (1 : ℝ)^2 by norm_num]
    exact Real.sqrt_sq (by norm_num)
  unfold placeCellsGaussianState
  rw [List.map_cons, List.map_cons, List.map_cons, List.map_nil, h0, h1, h2]
  have e0 : Real.exp (-(0 : ℝ)^2 / (2 * (0.2 : ℝ)^2)) = 1 := by
    norm_num
  rw [e0]
  refine List.cons_eq_cons.mpr ⟨by ring, ?_⟩
  refine List.cons_eq_cons.mpr ⟨by ring, ?_⟩
  refine List.cons_eq_cons.mpr ⟨by ring, rfl⟩

lemma dotList_map_zero (l : List ℕ) (v : List ℝ) :
    dotList (l.map (fun _ => (0 : ℝ))) v = 0 := by
  induction l generalizing v with
  | nil => rfl
  | cons a as ih =>
    cases v with
    | nil => rfl
    | cons x xs =>
      rw [List.map_cons]
      show 0 * x + dotList (as.map fun _ => (0:ℝ)) xs = 0
      rw [ih, zero_mul, add_zero]

lemma dotList_oneHotRow (v : List ℝ) (i : ℕ) (hi : i < v.length) :
    dotList ((List.range v.length).map (fun j => if i = j then (1 : ℝ) else 0)) v
      = v.getD i 0 := by
  induction v generalizing i with
  | nil => simp at hi
  | cons x xs ih =>
    rw [List.length_cons, List.range_succ_eq_map, List.map_cons, List.map_map]
    cases i with
    | zero =>
      have hz : ((fun j => if 0 = j then (1 : ℝ) else 0) ∘ Nat.succ)
          = fun _ => (0 : ℝ) := by
        funext j
        simp
      show (if 0 = 0 then (1:ℝ) else 0) * x
          + dotList ((List.range xs.length).map
            ((fun j => if 0 = j then (1 : ℝ) else 0) ∘ Nat.succ)) xs
          = (x :: xs).getD 0 0
      rw [hz, dotList_map_zero, if_pos rfl, one_mul, add_zero, List.getD_cons_zero]
    | succ k =>
      have hk : k < xs.length := Nat.lt_of_succ_lt_succ (by simpa using hi)
      have hs : ((fun j => if k + 1 = j then (1 : ℝ) else 0) ∘ Nat.succ)
          = fun j => if k = j then (1 : ℝ) else 0 := by
        funext j
        by_cases h : k = j
        · subst h; simp
        · simp [h, fun hc : k + 1 = j + 1 => h (Nat.succ_injective hc)]
      show (if k + 1 = 0 then (1:ℝ) else 0) * x
          + dotList ((List.range xs.length).map
            ((fun j => if k + 1 = j then (1 : ℝ) else 0) ∘ Nat.succ)) xs
          = (x :: xs).getD (k + 1) 0
      rw [hs, ih k hk, if_neg (by omega), zero_mul, zero_add, List.getD_cons_succ]

lemma map_getD_range (v : List ℝ) :
    (List.range v.length).map (fun i => v.getD i 0) = v := by
  induction v with
  | nil => rfl
  | cons x xs ih =>
    rw [List.length_cons, List.range_succ_eq_map, List.map_cons, List.map_map]
    have hc : ((fun i => (x :: xs).getD i 0) ∘ Nat.succ) = fun i => xs.getD i 0 := by
      funext i
      simp
    rw [hc, ih]
    simp

lemma matvec_idMatrix (v : List ℝ) : matvec (idMatrix v.length) v = v := by
  unfold matvec idMatrix
  rw [List.map_map]
  have hc : ((fun row => dotList row v)
      ∘ fun i => (List.range v.length).map (fun j => if i = j then (1 : ℝ) else 0))
      = fun i => dotList ((List.range v.length).map
        (fun j => if i = j then (1 : ℝ) else 0)) v := rfl
  rw [hc]
  have : ∀ i ∈ List.range v.length,
      dotList ((List.range v.length).map (fun j => if i = j then (1 : ℝ) else 0)) v
        = v.getD i 0 := by
    intro i hi
    exact dotList_oneHotRow v i (List.mem_range.mp hi)
  rw [List.map_congr_left this, map_getD_range]

lemma vecAdd_replicate_zero_left (v : List ℝ) :
    vecAdd (List.replicate v.length 0) v = v := by
  induction v with
  | nil => rfl
  | cons x xs ih =>
    show (0 + x) :: vecAdd (List.replicate xs.length 0) xs = x :: xs
    rw [zero_add, ih]

lemma vecAdd_replicate_zero_right (v : List ℝ) :
    vecAdd v (List.replicate v.length 0) = v := by
  induction v with
  | nil => rfl
  | cons x xs ih =>
    show (x + 0) :: vecAdd xs (List.replicate xs.length 0) = x :: xs
    rw [add_zero, ih]

/-- Claim C6: a `FeedForwardLayer` with a single input layer of its own size,
identity weight matrix, all-zero biases and `"linear"` activation returns,
in `"last"` mode, exactly the input layer's currently stored firing-rate
vector. -/
theorem ffl_identity_linear_passthrough (inputFr : List ℝ) :
    fflGetStateLast inputFr.length [(idMatrix inputFr.length, inputFr)]
      (List.replicate inputFr.length 0) ActivationSpec.linear = inputFr := by
  unfold fflGetStateLast
  rw [List.foldl_cons, List.foldl_nil, matvec_idMatrix]
  rw [vecAdd_replicate_zero_left, vecAdd_replicate_zero_right]
  have : activate ActivationSpec.linear = fun x => x := rfl
  rw [this, List.map_id']

/-- Claim C10: for every call to `VelocityCells.get_state` — with
`one_sigma_speed` as fixed at construction — the factor multiplying every
head-direction rate is `norm(Agent.velocity) / (speed_mean + speed_std)`,
computed from the *agent's* current velocity; in particular, when
`evaluate_at ≠ "agent"` and a `vel` override `u` is supplied (with no
`head_direction` kwarg), the directional response is evaluated at `u`'s
bearing while the speed factor still uses the agent's velocity, whatever
`u`'s magnitude. -/
theorem velocity_cells_scale_ignores_override (prefs : List (ℝ × ℝ)) (mn mx : ℝ)
    (ev : String) (kw : HDKwargs) (ag : AgentRef) (hev : ev ≠ "agent") :
    (velocityCellsGetState prefs mn mx (ag.speedMean + ag.speedStd) ev kw ag
      = (hdcGetState prefs mn mx ev kw ag).map
          (fun r => r * (norm2 ag.velocity / (ag.speedMean + ag.speedStd)))) ∧
    (∀ u : ℝ × ℝ,
      velocityCellsGetState prefs mn mx (ag.speedMean + ag.speedStd) ev
          ⟨none, some u⟩ ag
        = (prefs.map (fun pa => vonMises (getAngle u) pa.1 pa.2 * (mx - mn) + mn)).map
            (fun r => r * (norm2 ag.velocity / (ag.speedMean + ag.speedStd)))) := by
  refine ⟨rfl, fun u => ?_⟩
  unfold velocityCellsGetState hdcGetState resolveHeadDirection
  rw [if_neg hev]

/-- Witness for `velocity_cells_scale_ignores_override` at a concrete call:
one cell, `evaluate_at = "all"`. -/
theorem velocity_cells_scale_ignores_override_witness :
    ("all" ≠ "agent") ∧
    ((velocityCellsGetState [((0 : ℝ), 1)] 0 1
        ((AgentRef.mk (1, 0) (3, 4) 1 1).speedMean
          + (AgentRef.mk (1, 0) (3, 4) 1 1).speedStd) "all"
        (HDKwargs.mk none none) (AgentRef.mk (1, 0) (3, 4) 1 1)
      = (hdcGetState [((0 : ℝ), 1)] 0 1 "all" (HDKwargs.mk none none)
          (AgentRef.mk (1, 0) (3, 4) 1 1)).map
          (fun r => r * (norm2 (AgentRef.mk (1, 0) (3, 4) 1 1).velocity
            / ((AgentRef.mk (1, 0) (3, 4) 1 1).speedMean
              + (AgentRef.mk (1, 0) (3, 4) 1 1).speedStd)))) ∧
    (∀ u : ℝ × ℝ,
      velocityCellsGetState [((0 : ℝ), 1)] 0 1
          ((AgentRef.mk (1, 0) (3, 4) 1 1).speedMean
            + (AgentRef.mk (1, 0) (3, 4) 1 1).speedStd) "all"
          ⟨none, some u⟩ (AgentRef.mk (1, 0) (3, 4) 1 1)
        = ([((0 : ℝ), 1)].map
            (fun pa => vonMises (getAngle u) pa.1 pa.2 * (1 - 0) + 0)).map
            (fun r => r * (norm2 (AgentRef.mk (1, 0) (3, 4) 1 1).velocity
              / ((AgentRef.mk (1, 0) (3, 4) 1 1).speedMean
                + (AgentRef.mk (1, 0) (3, 4) 1 1).speedStd))))) :=
  ⟨by decide,
   velocity_cells_scale_ignores_override [((0 : ℝ), 1)] 0 1 "all"
     (HDKwargs.mk none none) (AgentRef.mk (1, 0) (3, 4) 1 1) (by decide)⟩

end RatInABox

